import Mathlib

/-!
Shallow embedding of the KommandLineAutomation session engine
(`src/terminal.rs`, `src/script/mod.rs`, `src/pty/mod.rs`,
`src/media/recorder.rs`) and proofs about it.

Machine integers (`u16`, `u64`) are modelled as `Nat`; the only places the
source's fixed width matters for the verified properties are the `u16`
subtractions in `TerminalState::resize` (modelled by returning `none` on
underflow, mirroring the panicking/wrapping subtraction) and the `as u16`
casts in `find_text` (modelled by `% 2^16`).
-/

/-- The `TerminalSize` from `src/terminal.rs`: width and height in cells (u16). -/
structure TerminalSize where
  width : Nat
  height : Nat
deriving DecidableEq, Repr

/-- The `CharAttributes` from `src/terminal.rs`. -/
structure CharAttributes where
  fg_color : Option Nat
  bg_color : Option Nat
  bold : Bool
  italic : Bool
  underline : Bool
  reverse : Bool
deriving DecidableEq, Repr

/-- The `CharAttributes::default()`. -/
def CharAttributes.default : CharAttributes :=
  ⟨none, none, false, false, false, false⟩

/-- The `TerminalChar` from `src/terminal.rs`: a character with attributes. -/
structure TerminalChar where
  ch : Char
  attrs : CharAttributes
deriving DecidableEq, Repr

/-- The `TerminalChar::new(ch)` constructor. -/
def TerminalChar.new (c : Char) : TerminalChar :=
  ⟨c, CharAttributes.default⟩

/-- The `TerminalChar::default()`: a blank space with default attributes. -/
def TerminalChar.default : TerminalChar :=
  TerminalChar.new ' '

/-- The `CursorPosition` from `src/terminal.rs`. -/
structure CursorPosition where
  x : Nat
  y : Nat
deriving DecidableEq, Repr

/-- The `TerminalState` from `src/terminal.rs`. -/
structure TerminalState where
  size : TerminalSize
  cursor : CursorPosition
  buffer : List (List TerminalChar)
  title : List Char
  cursor_visible : Bool
deriving DecidableEq, Repr

/-- The `TerminalState::new(size)`: a blank grid with the cursor at the origin. -/
def TerminalState.new (size : TerminalSize) : TerminalState :=
  { size := size
    cursor := ⟨0, 0⟩
    buffer := List.replicate size.height (List.replicate size.width TerminalChar.default)
    title := []
    cursor_visible := true }

/-- Well-formedness maintained by every constructor and mutator of
`TerminalState`: the buffer has exactly `height` rows of exactly `width`
cells each. -/
def TerminalState.wf (st : TerminalState) : Prop :=
  st.buffer.length = st.size.height ∧ ∀ row ∈ st.buffer, row.length = st.size.width

/-- The `TerminalState::get_char(x, y)`. -/
def TerminalState.get_char (st : TerminalState) (x y : Nat) : Option TerminalChar :=
  if x < st.size.width ∧ y < st.size.height then
    st.buffer[y]?.bind fun row => row[x]?
  else none

/-- The `TerminalState::set_char(x, y, ch)`. -/
def TerminalState.set_char (st : TerminalState) (x y : Nat) (c : TerminalChar) :
    TerminalState :=
  if x < st.size.width ∧ y < st.size.height then
    match st.buffer[y]? with
    | some row => { st with buffer := st.buffer.set y (row.set x c) }
    | none => st
  else st

/-- The `TerminalState::resize(new_size)`.  The source's `new_size.width - 1` /
`new_size.height - 1` are `u16` subtractions that underflow when the operand
is 0; the model returns `none` exactly in that case. -/
def TerminalState.resize (st : TerminalState) (ns : TerminalSize) :
    Option TerminalState :=
  if ns = st.size then some st
  else
    let copyH := min st.size.height ns.height
    let copyW := min st.size.width ns.width
    let newBuffer := (List.range ns.height).map fun y =>
      (List.range ns.width).map fun x =>
        if x < copyW ∧ y < copyH then (st.get_char x y).getD TerminalChar.default
        else TerminalChar.default
    let cxo := if ns.width ≤ st.cursor.x then
        (if ns.width = 0 then none else some (ns.width - 1))
      else some st.cursor.x
    let cyo := if ns.height ≤ st.cursor.y then
        (if ns.height = 0 then none else some (ns.height - 1))
      else some st.cursor.y
    match cxo, cyo with
    | some cx, some cy =>
        some { st with buffer := newBuffer, size := ns, cursor := ⟨cx, cy⟩ }
    | _, _ => none

example :
    (TerminalState.new ⟨2, 2⟩).get_char 1 1 = some TerminalChar.default := by decide

example :
    ((TerminalState.new ⟨2, 2⟩).set_char 0 1 (TerminalChar.new 'a')).get_char 0 1 =
      some (TerminalChar.new 'a') := by decide

example :
    ((TerminalState.new ⟨2, 2⟩).resize ⟨1, 1⟩).isSome = true := by decide

example :
    ((TerminalState.new ⟨2, 2⟩).resize ⟨0, 1⟩) = none := by decide

/-- A well-formed state has, for each in-bounds row index, an actual row of
exactly `width` cells. -/
theorem TerminalState.wf_row (st : TerminalState) (hwf : st.wf) {y : Nat}
    (hy : y < st.size.height) :
    ∃ row, st.buffer[y]? = some row ∧ row.length = st.size.width := by
  obtain ⟨hlen, hrows⟩ := hwf
  have hy' : y < st.buffer.length := by omega
  exact ⟨st.buffer[y], List.getElem?_eq_getElem hy',
    hrows _ (List.getElem_mem hy')⟩

/-- The `TerminalState::new` produces a well-formed state. -/
theorem TerminalState.new_wf (s : TerminalSize) : (TerminalState.new s).wf := by
  constructor
  · simp [TerminalState.new]
  · intro row hrow
    have := List.eq_of_mem_replicate hrow
    subst this
    simp [TerminalState.new]

/-- C10: on a well-formed state, `get_char` returns `None` exactly on
out-of-bounds coordinates and `Some` of the stored cell otherwise;
`set_char` with out-of-bounds coordinates leaves the state unchanged, and
with in-bounds coordinates changes exactly the cell at `(x, y)`, leaving
every other cell, the size, the cursor, the title, and cursor visibility
unchanged. -/
theorem TerminalState.get_set_char_correct (st : TerminalState) (hwf : st.wf) :
    (∀ x y, st.get_char x y = none ↔
      (st.size.width ≤ x ∨ st.size.height ≤ y)) ∧
    (∀ x y row, x < st.size.width → y < st.size.height →
      st.buffer[y]? = some row → st.get_char x y = row[x]?) ∧
    (∀ x y c, (st.size.width ≤ x ∨ st.size.height ≤ y) →
      st.set_char x y c = st) ∧
    (∀ x y c, x < st.size.width → y < st.size.height →
      (st.set_char x y c).get_char x y = some c ∧
      (∀ x' y', ¬(x' = x ∧ y' = y) →
        (st.set_char x y c).get_char x' y' = st.get_char x' y') ∧
      (st.set_char x y c).size = st.size ∧
      (st.set_char x y c).cursor = st.cursor ∧
      (st.set_char x y c).title = st.title ∧
      (st.set_char x y c).cursor_visible = st.cursor_visible) := by
  have hlen : st.buffer.length = st.size.height := hwf.1
  refine ⟨?_, ?_, ?_, ?_⟩
  · intro x y
    unfold TerminalState.get_char
    by_cases hin : x < st.size.width ∧ y < st.size.height
    · obtain ⟨row, hrow, hrw⟩ := st.wf_row hwf hin.2
      rw [if_pos hin, hrow]
      simp only [Option.some_bind]
      constructor
      · intro hnone
        have : row[x]? = some row[x] := List.getElem?_eq_getElem (by omega)
        rw [this] at hnone
        exact absurd hnone (by simp)
      · intro h; omega
    · rw [if_neg hin]
      constructor
      · intro _; omega
      · intro _; rfl
  · intro x y row hx hy hrow
    unfold TerminalState.get_char
    rw [if_pos ⟨hx, hy⟩, hrow]
    rfl
  · intro x y c hout
    unfold TerminalState.set_char
    rw [if_neg (by omega)]
  · intro x y c hx hy
    obtain ⟨row, hrow, hrw⟩ := st.wf_row hwf hy
    have hy' : y < st.buffer.length := by omega
    have hset : st.set_char x y c =
        { st with buffer := st.buffer.set y (row.set x c) } := by
      unfold TerminalState.set_char
      rw [if_pos ⟨hx, hy⟩, hrow]
    refine ⟨?_, ?_, by rw [hset], by rw [hset], by rw [hset], by rw [hset]⟩
    · rw [hset]
      unfold TerminalState.get_char
      rw [if_pos ⟨hx, hy⟩]
      have h1 : (st.buffer.set y (row.set x c))[y]? = some (row.set x c) := by
        rw [List.getElem?_set]
        simp [hy']
      have h2 : (row.set x c)[x]? = some c := by
        rw [List.getElem?_set]
        simp [show x < row.length by omega]
      rw [h1, Option.some_bind, h2]
    · intro x' y' hne
      rw [hset]
      unfold TerminalState.get_char
      by_cases hin : x' < st.size.width ∧ y' < st.size.height
      · rw [if_pos hin, if_pos hin]
        by_cases hyy : y = y'
        · subst hyy
          have hxx : ¬ x = x' := fun h => hne ⟨h.symm, rfl⟩
          have h1 : (st.buffer.set y (row.set x c))[y]? = some (row.set x c) := by
            rw [List.getElem?_set]
            simp [hy']
          have h2 : (row.set x c)[x']? = row[x']? := by
            rw [List.getElem?_set, if_neg hxx]
          rw [h1, Option.some_bind, h2, hrow, Option.some_bind]
        · have h1 : (st.buffer.set y (row.set x c))[y']? = st.buffer[y']? := by
            rw [List.getElem?_set, if_neg hyy]
          rw [h1]
      · rw [if_neg hin, if_neg hin]

/-- The state a non-trivial, non-underflowing `resize` produces: the copied
grid and the clamped cursor. -/
def TerminalState.resizedState (st : TerminalState) (ns : TerminalSize) :
    TerminalState :=
  { size := ns
    cursor := ⟨(if ns.width ≤ st.cursor.x then ns.width - 1 else st.cursor.x),
               (if ns.height ≤ st.cursor.y then ns.height - 1 else st.cursor.y)⟩
    buffer := (List.range ns.height).map fun y =>
      (List.range ns.width).map fun x =>
        if x < min st.size.width ns.width ∧ y < min st.size.height ns.height then
          (st.get_char x y).getD TerminalChar.default
        else TerminalChar.default
    title := st.title
    cursor_visible := st.cursor_visible }

/-- Explicit form of a successful `resize` call: the target size differs from
the current one and both target dimensions are positive. -/
theorem TerminalState.resize_eq_some (st : TerminalState) (ns : TerminalSize)
    (hne : ns ≠ st.size) (hw : 1 ≤ ns.width) (hh : 1 ≤ ns.height) :
    st.resize ns = some (st.resizedState ns) := by
  unfold TerminalState.resize TerminalState.resizedState
  rw [if_neg hne]
  have hw0 : ¬ ns.width = 0 := by omega
  have hh0 : ¬ ns.height = 0 := by omega
  by_cases h1 : ns.width ≤ st.cursor.x <;> by_cases h2 : ns.height ≤ st.cursor.y <;>
    simp [h1, h2, hw0, hh0]

/-- Reading a cell of the resized grid: inside the overlap it is the old cell
(defaulted when the old buffer was ragged there), outside it is blank. -/
theorem TerminalState.resizedState_get_char (st : TerminalState)
    (ns : TerminalSize) {x y : Nat} (hx : x < ns.width) (hy : y < ns.height) :
    (st.resizedState ns).get_char x y = some
      (if x < min st.size.width ns.width ∧ y < min st.size.height ns.height then
        (st.get_char x y).getD TerminalChar.default
      else TerminalChar.default) := by
  have hsz : (st.resizedState ns).size = ns := rfl
  have hbuf : (st.resizedState ns).buffer = (List.range ns.height).map fun y =>
      (List.range ns.width).map fun x =>
        if x < min st.size.width ns.width ∧ y < min st.size.height ns.height then
          (st.get_char x y).getD TerminalChar.default
        else TerminalChar.default := rfl
  unfold TerminalState.get_char
  rw [hsz, hbuf, if_pos ⟨hx, hy⟩, List.getElem?_map, List.getElem?_range hy]
  simp only [Option.map_some', Option.some_bind]
  rw [List.getElem?_map, List.getElem?_range hx]
  simp only [Option.map_some']
  rfl

/-- C1: for a well-formed state with the cursor in bounds and a positive
target size, `resize` keeps every cell of the overlapping top-left rectangle,
blanks every cell of the new grid outside the overlap, and leaves the cursor
strictly inside the new bounds, moving it only if it fell outside. -/
theorem TerminalState.resize_correct (st : TerminalState) (ns : TerminalSize)
    (hwf : st.wf) (hcx : st.cursor.x < st.size.width)
    (hcy : st.cursor.y < st.size.height)
    (hw : 1 ≤ ns.width) (hh : 1 ≤ ns.height) :
    ∃ st', st.resize ns = some st' ∧
      (∀ x y, x < min st.size.width ns.width → y < min st.size.height ns.height →
        st'.get_char x y = st.get_char x y) ∧
      (∀ x y, x < ns.width → y < ns.height →
        (min st.size.width ns.width ≤ x ∨ min st.size.height ns.height ≤ y) →
        st'.get_char x y = some TerminalChar.default) ∧
      st'.cursor.x < ns.width ∧ st'.cursor.y < ns.height ∧
      (st.cursor.x < ns.width → st'.cursor.x = st.cursor.x) ∧
      (st.cursor.y < ns.height → st'.cursor.y = st.cursor.y) := by
  by_cases hne : ns = st.size
  · subst hne
    refine ⟨st, ?_, ?_, ?_, hcx, hcy, fun _ => rfl, fun _ => rfl⟩
    · unfold TerminalState.resize
      rw [if_pos rfl]
    · intro x y _ _
      rfl
    · intro x y hxw hyh hout
      exfalso
      omega
  · refine ⟨_, st.resize_eq_some ns hne hw hh, ?_, ?_, ?_, ?_, ?_, ?_⟩
    · intro x y hx hy
      rw [st.resizedState_get_char ns (by omega) (by omega), if_pos ⟨hx, hy⟩]
      obtain ⟨row, hrow, hrl⟩ := st.wf_row hwf (show y < st.size.height by omega)
      have hgc : st.get_char x y = row[x]? := by
        unfold TerminalState.get_char
        rw [if_pos ⟨by omega, by omega⟩, hrow, Option.some_bind]
      rw [hgc, List.getElem?_eq_getElem (show x < row.length by omega)]
      rfl
    · intro x y hx hy hout
      rw [st.resizedState_get_char ns hx hy, if_neg (by omega)]
    · simp only [TerminalState.resizedState]
      split_ifs <;> omega
    · simp only [TerminalState.resizedState]
      split_ifs <;> omega
    · intro hlt
      simp only [TerminalState.resizedState]
      rw [if_neg (by omega)]
    · intro hlt
      simp only [TerminalState.resizedState]
      rw [if_neg (by omega)]

/-- Witness for C1: `TerminalState.resize_correct` applied to the concrete
state `TerminalState.new ⟨2, 2⟩` and target size `3 × 1`, with every
hypothesis discharged there. -/
theorem TerminalState.resize_correct_witness :
    (TerminalState.new ⟨2, 2⟩).wf ∧
      ∃ st', (TerminalState.new ⟨2, 2⟩).resize ⟨3, 1⟩ = some st' ∧
        (∀ x y, x < min 2 3 → y < min 2 1 →
          st'.get_char x y = (TerminalState.new ⟨2, 2⟩).get_char x y) ∧
        (∀ x y, x < 3 → y < 1 → (min 2 3 ≤ x ∨ min 2 1 ≤ y) →
          st'.get_char x y = some TerminalChar.default) ∧
        st'.cursor.x < 3 ∧ st'.cursor.y < 1 ∧
        ((TerminalState.new ⟨2, 2⟩).cursor.x < 3 →
          st'.cursor.x = (TerminalState.new ⟨2, 2⟩).cursor.x) ∧
        ((TerminalState.new ⟨2, 2⟩).cursor.y < 1 →
          st'.cursor.y = (TerminalState.new ⟨2, 2⟩).cursor.y) :=
  ⟨TerminalState.new_wf ⟨2, 2⟩,
    TerminalState.resize_correct (TerminalState.new ⟨2, 2⟩) ⟨3, 1⟩
      (TerminalState.new_wf ⟨2, 2⟩) (by decide) (by decide) (by decide) (by decide)⟩

/-- The size recorded by `resizedState` is the target size. -/
theorem TerminalState.resizedState_size (st : TerminalState) (ns : TerminalSize) :
    (st.resizedState ns).size = ns := rfl

/-- C2: resizing a well-formed state to `(w2, h2)` and back to its original
size preserves every cell inside the intersection of the two sizes and blanks
every other cell of the final grid. -/
theorem TerminalState.resize_roundtrip (st : TerminalState) (ns2 : TerminalSize)
    (hwf : st.wf) (hw1 : 1 ≤ st.size.width) (hh1 : 1 ≤ st.size.height)
    (hw2 : 1 ≤ ns2.width) (hh2 : 1 ≤ ns2.height) :
    ∃ st1 st2, st.resize ns2 = some st1 ∧ st1.resize st.size = some st2 ∧
      (∀ x y, x < min st.size.width ns2.width →
        y < min st.size.height ns2.height →
        st2.get_char x y = st.get_char x y) ∧
      (∀ x y, x < st.size.width → y < st.size.height →
        (min st.size.width ns2.width ≤ x ∨ min st.size.height ns2.height ≤ y) →
        st2.get_char x y = some TerminalChar.default) := by
  by_cases hne : ns2 = st.size
  · subst hne
    have hid : st.resize st.size = some st := by
      unfold TerminalState.resize
      rw [if_pos rfl]
    refine ⟨st, st, hid, hid, fun _ _ _ _ => rfl, ?_⟩
    intro x y hx hy hout
    exfalso
    omega
  · have h1 : st.resize ns2 = some (st.resizedState ns2) :=
      st.resize_eq_some ns2 hne hw2 hh2
    have hne' : st.size ≠ (st.resizedState ns2).size := by
      rw [TerminalState.resizedState_size]
      exact fun h => hne h.symm
    have h2 : (st.resizedState ns2).resize st.size =
        some ((st.resizedState ns2).resizedState st.size) :=
      (st.resizedState ns2).resize_eq_some st.size hne' hw1 hh1
    refine ⟨_, _, h1, h2, ?_, ?_⟩
    · intro x y hx hy
      rw [(st.resizedState ns2).resizedState_get_char st.size
        (show x < st.size.width by omega) (show y < st.size.height by omega)]
      rw [TerminalState.resizedState_size]
      rw [if_pos ⟨by omega, by omega⟩]
      rw [st.resizedState_get_char ns2 (show x < ns2.width by omega)
        (show y < ns2.height by omega)]
      rw [if_pos ⟨by omega, by omega⟩]
      obtain ⟨row, hrow, hrl⟩ := st.wf_row hwf (show y < st.size.height by omega)
      have hgc : st.get_char x y = row[x]? := by
        unfold TerminalState.get_char
        rw [if_pos ⟨by omega, by omega⟩, hrow, Option.some_bind]
      rw [hgc, List.getElem?_eq_getElem (show x < row.length by omega)]
      rfl
    · intro x y hx hy hout
      rw [(st.resizedState ns2).resizedState_get_char st.size hx hy]
      rw [TerminalState.resizedState_size]
      rw [if_neg (by omega)]

/-- Witness for C2: `TerminalState.resize_roundtrip` applied at the concrete
state `TerminalState.new ⟨2, 2⟩` with intermediate size `1 × 3`, every
hypothesis discharged there. -/
theorem TerminalState.resize_roundtrip_witness :
    (TerminalState.new ⟨2, 2⟩).wf ∧
      ∃ st1 st2, (TerminalState.new ⟨2, 2⟩).resize ⟨1, 3⟩ = some st1 ∧
        st1.resize ⟨2, 2⟩ = some st2 ∧
        (∀ x y, x < min 2 1 → y < min 2 3 →
          st2.get_char x y = (TerminalState.new ⟨2, 2⟩).get_char x y) ∧
        (∀ x y, x < 2 → y < 2 → (min 2 1 ≤ x ∨ min 2 3 ≤ y) →
          st2.get_char x y = some TerminalChar.default) :=
  ⟨TerminalState.new_wf ⟨2, 2⟩,
    TerminalState.resize_roundtrip (TerminalState.new ⟨2, 2⟩) ⟨1, 3⟩
      (TerminalState.new_wf ⟨2, 2⟩) (by decide) (by decide) (by decide) (by decide)⟩

/-- C9: `resize` to a size differing from the current one is total exactly
when both target dimensions are positive: the `u16` subtractions
`new_width - 1` / `new_height - 1` then do not underflow and the cursor ends
strictly inside the new bounds; with a zero target width or height the
subtraction underflows (modelled as `none`). -/
theorem TerminalState.resize_total_iff_positive (st : TerminalState)
    (ns : TerminalSize) (hne : ns ≠ st.size) :
    (1 ≤ ns.width → 1 ≤ ns.height →
      ∃ st', st.resize ns = some st' ∧
        st'.cursor.x < ns.width ∧ st'.cursor.y < ns.height) ∧
    ((ns.width = 0 ∨ ns.height = 0) → st.resize ns = none) := by
  constructor
  · intro hw hh
    refine ⟨_, st.resize_eq_some ns hne hw hh, ?_, ?_⟩ <;>
      · simp only [TerminalState.resizedState]
        split_ifs <;> omega
  · intro h0
    unfold TerminalState.resize
    rw [if_neg hne]
    rcases h0 with h | h
    · have h1 : ns.width ≤ st.cursor.x := by omega
      simp [h1, h]
    · have h2 : ns.height ≤ st.cursor.y := by omega
      by_cases h1 : ns.width ≤ st.cursor.x
      · by_cases hw0 : ns.width = 0
        · simp [h1, hw0]
        · simp [h1, hw0, h2, h]
      · simp [h1, h2, h]

/-- Witness for C9: applying `TerminalState.resize_total_iff_positive` at the
concrete state `TerminalState.new ⟨2, 2⟩` and target size `3 × 1`, whose
hypotheses hold, yields a successful resize with the cursor in bounds. -/
theorem TerminalState.resize_total_iff_positive_witness :
    (⟨3, 1⟩ : TerminalSize) ≠ (TerminalState.new ⟨2, 2⟩).size ∧
      ∃ st', (TerminalState.new ⟨2, 2⟩).resize ⟨3, 1⟩ = some st' ∧
        st'.cursor.x < 3 ∧ st'.cursor.y < 1 :=
  ⟨by decide,
    (TerminalState.resize_total_iff_positive (TerminalState.new ⟨2, 2⟩) ⟨3, 1⟩
        (by decide)).1 (by decide) (by decide)⟩

/-! ### Text rendering and search (`get_text`, `find_text`)

Strings are modelled as `List Char`; byte positions (Rust `str` indices) are
computed with `Char.utf8Size`. -/

/-- Rust `char::is_whitespace`: the Unicode White_Space property. -/
def rustIsWhitespace (c : Char) : Bool :=
  let n := c.toNat
  decide ((9 ≤ n ∧ n ≤ 13) ∨ n = 32 ∨ n = 133 ∨ n = 160 ∨ n = 0x1680 ∨
    (0x2000 ≤ n ∧ n ≤ 0x200A) ∨ n = 0x2028 ∨ n = 0x2029 ∨ n = 0x202F ∨
    n = 0x205F ∨ n = 0x3000)

/-- Rust `str::trim_end`: drop trailing whitespace characters. -/
def trimEnd (cs : List Char) : List Char :=
  (cs.reverse.dropWhile rustIsWhitespace).reverse

/-- Total UTF-8 byte length of a character list (Rust `str::len`). -/
def byteLen (cs : List Char) : Nat :=
  (cs.map Char.utf8Size).sum

/-- Whether `pat` is a prefix of `cs` (both at character granularity). -/
def startsWith : List Char → List Char → Bool
  | _, [] => true
  | [], _ :: _ => false
  | c :: cs, p :: ps => c = p && startsWith cs ps

/-- Helper for `rustFind`: scan for the first occurrence of `pat`,
accumulating the byte offset. -/
def rustFindAux (pat : List Char) : List Char → Nat → Option Nat
  | [], acc => if startsWith [] pat then some acc else none
  | c :: rest, acc =>
    if startsWith (c :: rest) pat then some acc
    else rustFindAux pat rest (acc + c.utf8Size)

/-- Rust `str::find(&str)`: byte index of the first occurrence of `pat` in
`hay`.  Valid UTF-8 needles only match at character boundaries, so the
character-level scan with byte accounting is exact. -/
def rustFind (hay pat : List Char) : Option Nat :=
  rustFindAux pat hay 0

/-- Rust `str::contains(&str)`. -/
def rustContains (hay pat : List Char) : Bool :=
  (rustFind hay pat).isSome

/-- Rust `str::lines()`: split at `"\n"` or `"\r\n"`, no trailing empty line
for a trailing line terminator. -/
def rustLines : List Char → List (List Char)
  | [] => []
  | '\n' :: rest => [] :: rustLines rest
  | '\r' :: '\n' :: rest => [] :: rustLines rest
  | c :: rest =>
    match rustLines rest with
    | [] => [[c]]
    | l :: ls => (c :: l) :: ls

/-- The `TerminalState::get_text()`: rows right-trimmed and joined by newlines. -/
def TerminalState.get_text (st : TerminalState) : List Char :=
  List.intercalate ['\n'] (st.buffer.map fun row => trimEnd (row.map TerminalChar.ch))

/-- The `TerminalState::contains_text(text)`. -/
def TerminalState.contains_text (st : TerminalState) (text : List Char) : Bool :=
  rustContains st.get_text text

/-- The byte-position-to-line/column loop inside `TerminalState::find_text`;
the `as u16` casts are `% 65536`. -/
def findLoop : List (List Char) → Nat → Nat → Nat → Option CursorPosition
  | [], _, _, _ => none
  | l :: ls, pos, cnt, idx =>
    if pos ≤ cnt + byteLen l then some ⟨(pos - cnt) % 65536, idx % 65536⟩
    else findLoop ls pos (cnt + byteLen l + 1) (idx + 1)

/-- The `TerminalState::find_text(text)`. -/
def TerminalState.find_text (st : TerminalState) (text : List Char) :
    Option CursorPosition :=
  let content := st.get_text
  match rustFind content text with
  | some pos => findLoop (rustLines content) pos 0 0
  | none => none

/-- Byte length of a concatenation. -/
theorem byteLen_append (a b : List Char) :
    byteLen (a ++ b) = byteLen a + byteLen b := by
  simp [byteLen]

/-- Byte length of a cons cell. -/
theorem byteLen_cons (c : Char) (a : List Char) :
    byteLen (c :: a) = c.utf8Size + byteLen a := by
  simp [byteLen]

/-- A non-empty character list has positive byte length. -/
theorem byteLen_pos (cs : List Char) (h : cs ≠ []) : 1 ≤ byteLen cs := by
  cases cs with
  | nil => exact absurd rfl h
  | cons c rest =>
    have := Char.utf8Size_pos c
    rw [byteLen_cons]
    omega

/-- The `startsWith cs pat` holds exactly when `pat` is a prefix of `cs`. -/
theorem startsWith_iff (cs pat : List Char) :
    startsWith cs pat = true ↔ ∃ suf, cs = pat ++ suf := by
  induction pat generalizing cs with
  | nil =>
    simp only [startsWith, List.nil_append]
    exact ⟨fun _ => ⟨cs, rfl⟩, fun _ => trivial⟩
  | cons p ps ih =>
    cases cs with
    | nil =>
      simp only [startsWith]
      constructor
      · intro h
        exact absurd h (by simp)
      · rintro ⟨suf, hsuf⟩
        exact absurd hsuf (by simp)
    | cons c cs' =>
      simp only [startsWith, Bool.and_eq_true, decide_eq_true_eq, ih]
      constructor
      · rintro ⟨rfl, suf, rfl⟩
        exact ⟨suf, rfl⟩
      · rintro ⟨suf, hsuf⟩
        rw [List.cons_append] at hsuf
        injection hsuf with h1 h2
        exact ⟨h1, suf, h2⟩

/-- The `rustFindAux` returns `none` exactly when `pat` occurs nowhere in the
remaining haystack. -/
theorem rustFindAux_none_iff (pat hay : List Char) (acc : Nat) :
    rustFindAux pat hay acc = none ↔ ∀ pre suf, hay ≠ pre ++ pat ++ suf := by
  induction hay generalizing acc with
  | nil =>
    by_cases h : startsWith [] pat = true
    · obtain ⟨suf, hsuf⟩ := (startsWith_iff [] pat).mp h
      have hpat : pat = [] := by
        cases pat with
        | nil => rfl
        | cons p ps => exact absurd hsuf (by simp)
      subst hpat
      simp only [rustFindAux, if_pos h]
      constructor
      · intro hc
        exact absurd hc (by simp)
      · intro hall
        exact ((hall [] []) (by simp)).elim
    · simp only [rustFindAux, if_neg h]
      constructor
      · intro _ pre suf hc
        have : pre = [] ∧ pat ++ suf = [] := by
          constructor
          · cases pre with
            | nil => rfl
            | cons a b => exact absurd hc.symm (by simp)
          · cases pre with
            | nil => exact hc.symm
            | cons a b => exact absurd hc.symm (by simp)
        have hpat : pat = [] := by
          rcases this with ⟨_, h2⟩
          cases pat with
          | nil => rfl
          | cons a b => exact absurd h2 (by simp)
        subst hpat
        exact h ((startsWith_iff [] []).mpr ⟨[], rfl⟩)
      · intro _
        trivial
  | cons c rest ih =>
    by_cases h : startsWith (c :: rest) pat = true
    · obtain ⟨suf, hsuf⟩ := (startsWith_iff _ pat).mp h
      simp only [rustFindAux, if_pos h]
      constructor
      · intro hc
        exact absurd hc (by simp)
      · intro hall
        exact absurd hsuf (by simpa using hall [] suf)
    · simp only [rustFindAux, if_neg h, ih]
      constructor
      · intro hall pre suf hc
        cases pre with
        | nil =>
          exact h ((startsWith_iff _ pat).mpr ⟨suf, by simpa using hc⟩)
        | cons a pre' =>
          rw [List.cons_append, List.cons_append] at hc
          injection hc with h1 h2
          exact hall pre' suf h2
      · intro hall pre suf hc
        exact hall (c :: pre) suf (by simp [hc])

/-- The `rustFindAux` returning `some n` exhibits the first occurrence of `pat`:
`n` is `acc` plus the byte length of the text before the match, and no
occurrence starts at a smaller byte offset. -/
theorem rustFindAux_some (pat hay : List Char) (acc n : Nat)
    (h : rustFindAux pat hay acc = some n) :
    ∃ pre suf, hay = pre ++ pat ++ suf ∧ n = acc + byteLen pre ∧
      ∀ pre' suf', hay = pre' ++ pat ++ suf' → byteLen pre ≤ byteLen pre' := by
  induction hay generalizing acc with
  | nil =>
    by_cases hs : startsWith [] pat = true
    · obtain ⟨suf, hsuf⟩ := (startsWith_iff [] pat).mp hs
      have hpat : pat = [] := by
        cases pat with
        | nil => rfl
        | cons p ps => exact absurd hsuf (by simp)
      subst hpat
      simp only [rustFindAux, if_pos hs, Option.some.injEq] at h
      exact ⟨[], [], rfl, by simp [byteLen, h.symm], fun pre' suf' _ => Nat.zero_le _⟩
    · simp only [rustFindAux, if_neg hs] at h
      exact absurd h (by simp)
  | cons c rest ih =>
    by_cases hs : startsWith (c :: rest) pat = true
    · obtain ⟨suf, hsuf⟩ := (startsWith_iff _ pat).mp hs
      simp only [rustFindAux, if_pos hs, Option.some.injEq] at h
      exact ⟨[], suf, by simpa using hsuf, by simp [byteLen, h.symm],
        fun pre' suf' _ => Nat.zero_le _⟩
    · simp only [rustFindAux, if_neg hs] at h
      obtain ⟨pre, suf, hdec, hn, hmin⟩ := ih (acc + c.utf8Size) h
      refine ⟨c :: pre, suf, by simp [hdec], by rw [byteLen_cons]; omega, ?_⟩
      intro pre' suf' hc
      cases pre' with
      | nil => exact absurd ((startsWith_iff _ pat).mpr ⟨suf', by simpa using hc⟩) hs
      | cons a pre'' =>
        rw [List.cons_append, List.cons_append] at hc
        injection hc with h1 h2
        subst h1
        rw [byteLen_cons, byteLen_cons]
        exact Nat.add_le_add_left (hmin pre'' suf' h2) _

/-- The number of bytes the `find_text` loop accounts to a list of lines:
each line's byte length plus one for its newline. -/
def lineSum (lines : List (List Char)) : Nat :=
  (lines.map fun l => byteLen l + 1).sum

/-- Unfolding `rustLines` at an ordinary (non-terminator) head character. -/
theorem rustLines_cons_ne (c : Char) (rest : List Char) (hn : c ≠ '\n')
    (hr : c ≠ '\r') :
    rustLines (c :: rest) = match rustLines rest with
      | [] => [[c]]
      | l :: ls => (c :: l) :: ls := by
  rw [rustLines.eq_def]
  simp [hn, hr]

/-- The `rustLines` yields no lines only for the empty string. -/
theorem rustLines_eq_nil_iff (cs : List Char) : rustLines cs = [] ↔ cs = [] := by
  cases cs with
  | nil => simp [rustLines]
  | cons c rest =>
    constructor
    · intro h
      exfalso
      by_cases hn : c = '\n'
      · subst hn
        simp [rustLines] at h
      · by_cases hr : c = '\r'
        · subst hr
          cases rest with
          | nil => exact absurd h (by decide)
          | cons r0 rr =>
            by_cases h0 : r0 = '\n'
            · subst h0
              simp [rustLines] at h
            · rw [rustLines.eq_def] at h
              simp [h0] at h
              rcases hx : rustLines (r0 :: rr) with _ | ⟨l, ls⟩ <;>
                rw [hx] at h <;> simp at h
        · rw [rustLines_cons_ne c rest hn hr] at h
          rcases hx : rustLines rest with _ | ⟨l, ls⟩ <;>
            rw [hx] at h <;> simp at h
    · intro h
      exact absurd h (by simp)

/-- On carriage-return-free text the byte length of the string is at most the
loop's total line accounting. -/
theorem byteLen_le_lineSum (cs : List Char) (hcr : '\r' ∉ cs) :
    byteLen cs ≤ lineSum (rustLines cs) := by
  induction cs with
  | nil => simp [byteLen, rustLines, lineSum]
  | cons c rest ih =>
    have hcr' : '\r' ∉ rest := fun h => hcr (List.mem_cons_of_mem _ h)
    have hc : c ≠ '\r' := fun h => hcr (h ▸ List.mem_cons_self _ _)
    have ihr := ih hcr'
    by_cases hn : c = '\n'
    · subst hn
      have heq : rustLines ('\n' :: rest) = [] :: rustLines rest := by
        simp [rustLines]
      rw [heq, byteLen_cons]
      have h1 : ('\n' : Char).utf8Size = 1 := by decide
      have h0 : byteLen ([] : List Char) = 0 := rfl
      simp only [lineSum, List.map_cons, List.sum_cons, h0, h1]
      simp only [lineSum] at ihr
      omega
    · rw [rustLines_cons_ne c rest hn hc, byteLen_cons]
      rcases hx : rustLines rest with _ | ⟨l, ls⟩
      · have : rest = [] := (rustLines_eq_nil_iff rest).mp hx
        subst this
        simp [byteLen, lineSum]
      · rw [hx] at ihr
        simp only [lineSum, List.map_cons, List.sum_cons, byteLen_cons] at ihr ⊢
        omega

/-- Specification of the `find_text` conversion loop: given that the byte
position lies within the lines' total accounting, the loop stops at the
first line whose span (its bytes plus its terminator position) reaches
`pos`, and reports the position relative to that line's start. -/
theorem findLoop_some_spec (lines : List (List Char)) (pos cnt idx : Nat)
    (hle : cnt ≤ pos) (hlt : pos < cnt + lineSum lines) :
    ∃ j l, lines[j]? = some l ∧
      findLoop lines pos cnt idx =
        some ⟨(pos - (cnt + lineSum (lines.take j))) % 65536, (idx + j) % 65536⟩ ∧
      cnt + lineSum (lines.take j) ≤ pos ∧
      pos ≤ cnt + lineSum (lines.take j) + byteLen l ∧
      ∀ i m, i < j → lines[i]? = some m →
        cnt + lineSum (lines.take i) + byteLen m < pos := by
  induction lines generalizing cnt idx with
  | nil =>
    simp only [lineSum, List.map_nil, List.sum_nil] at hlt
    omega
  | cons l ls ih =>
    by_cases hstop : pos ≤ cnt + byteLen l
    · refine ⟨0, l, by simp, ?_, ?_, ?_, ?_⟩
      · simp only [findLoop, if_pos hstop]
        simp [lineSum]
      · simp [lineSum]
        omega
      · simp [lineSum]
        omega
      · intro i m hi _
        omega
    · push_neg at hstop
      have hrec : findLoop (l :: ls) pos cnt idx =
          findLoop ls pos (cnt + byteLen l + 1) (idx + 1) := by
        simp only [findLoop, if_neg (by omega : ¬ pos ≤ cnt + byteLen l)]
      have hlt' : pos < (cnt + byteLen l + 1) + lineSum ls := by
        simp only [lineSum, List.map_cons, List.sum_cons] at hlt
        simp only [lineSum]
        omega
      obtain ⟨j, m, hget, hloop, hlo, hhi, hmin⟩ :=
        ih (cnt + byteLen l + 1) (idx + 1) (by omega) hlt'
      refine ⟨j + 1, m, by simpa using hget, ?_, ?_, ?_, ?_⟩
      · rw [hrec, hloop]
        have htake : lineSum ((l :: ls).take (j + 1)) =
            byteLen l + 1 + lineSum (ls.take j) := by
          simp [lineSum]
        rw [htake]
        congr 2
        · omega
        · omega
      · simp only [List.take_succ_cons, lineSum, List.map_cons, List.sum_cons]
        simp only [lineSum] at hlo
        omega
      · simp only [List.take_succ_cons, lineSum, List.map_cons, List.sum_cons]
        simp only [lineSum] at hhi
        omega
      · intro i m' hi hget'
        cases i with
        | zero =>
          simp only [List.getElem?_cons_zero, Option.some.injEq] at hget'
          subst hget'
          simp [lineSum]
          omega
        | succ i' =>
          simp only [List.getElem?_cons_succ] at hget'
          have := hmin i' m' (by omega) hget'
          simp only [List.take_succ_cons, lineSum, List.map_cons, List.sum_cons]
          simp only [lineSum] at this
          omega

/-- Unfolding `TerminalState.find_text`. -/
theorem TerminalState.find_text_def (st : TerminalState) (text : List Char) :
    st.find_text text = match rustFind st.get_text text with
      | some pos => findLoop (rustLines st.get_text) pos 0 0
      | none => none := rfl

/-- A 2×1 grid whose cells are `é` (a two-byte character) and `x`. -/
def accentState : TerminalState :=
  ((TerminalState.new ⟨2, 1⟩).set_char 0 0 (TerminalChar.new 'é')).set_char 1 0
    (TerminalChar.new 'x')

/-- Counterexample to C3 as stated: `x` sits at grid column 1 of row 0, but
`find_text` reports byte offset 2 (the column after the two-byte `é`), not
character column 1. -/
theorem find_text_byte_column_counterexample :
    accentState.get_char 1 0 = some (TerminalChar.new 'x') ∧
    accentState.find_text ['x'] = some ⟨2, 0⟩ ∧
    accentState.find_text ['x'] ≠ some ⟨1, 0⟩ := by decide

/-- C3 (amended): for a non-empty needle and carriage-return-free rendered
text, `find_text` returns `None` exactly when the needle does not occur in
the rendering; otherwise it stops at the line containing the match's first
byte (a line's span including its terminating-newline position) and returns
that line's index together with the match's byte offset relative to the
line's start, both reduced `% 2^16` by the `as u16` casts. -/
theorem TerminalState.find_text_spec (st : TerminalState) (text : List Char)
    (hne : text ≠ []) (hcr : '\r' ∉ st.get_text) :
    (st.find_text text = none ↔ ∀ pre suf, st.get_text ≠ pre ++ text ++ suf) ∧
    (∀ pos, rustFind st.get_text text = some pos →
      ∃ j l, (rustLines st.get_text)[j]? = some l ∧
        st.find_text text =
          some ⟨(pos - lineSum ((rustLines st.get_text).take j)) % 65536,
                j % 65536⟩ ∧
        lineSum ((rustLines st.get_text).take j) ≤ pos ∧
        pos ≤ lineSum ((rustLines st.get_text).take j) + byteLen l ∧
        ∀ i m, i < j → (rustLines st.get_text)[i]? = some m →
          lineSum ((rustLines st.get_text).take i) + byteLen m < pos) := by
  have key : ∀ pos, rustFind st.get_text text = some pos →
      pos < lineSum (rustLines st.get_text) := by
    intro pos h
    obtain ⟨pre, suf, hdec, hpos, _⟩ := rustFindAux_some text st.get_text 0 pos h
    have h1 : byteLen st.get_text = byteLen pre + byteLen text + byteLen suf := by
      rw [hdec, byteLen_append, byteLen_append]
    have h2 : 1 ≤ byteLen text := byteLen_pos text hne
    have h3 : byteLen st.get_text ≤ lineSum (rustLines st.get_text) :=
      byteLen_le_lineSum st.get_text hcr
    omega
  have loopSpec : ∀ pos, rustFind st.get_text text = some pos →
      ∃ j l, (rustLines st.get_text)[j]? = some l ∧
        findLoop (rustLines st.get_text) pos 0 0 =
          some ⟨(pos - lineSum ((rustLines st.get_text).take j)) % 65536,
                j % 65536⟩ ∧
        lineSum ((rustLines st.get_text).take j) ≤ pos ∧
        pos ≤ lineSum ((rustLines st.get_text).take j) + byteLen l ∧
        ∀ i m, i < j → (rustLines st.get_text)[i]? = some m →
          lineSum ((rustLines st.get_text).take i) + byteLen m < pos := by
    intro pos h
    obtain ⟨j, l, hget, hloop, hlo, hhi, hmin⟩ :=
      findLoop_some_spec (rustLines st.get_text) pos 0 0 (Nat.zero_le _)
        (by simpa using key pos h)
    refine ⟨j, l, hget, by simpa using hloop, by simpa using hlo,
      by simpa using hhi, ?_⟩
    intro i m hi hget'
    simpa using hmin i m hi hget'
  constructor
  · rw [TerminalState.find_text_def]
    rcases hf : rustFind st.get_text text with _ | pos
    · simp only []
      have hf' : ∀ pre suf, st.get_text ≠ pre ++ text ++ suf :=
        (rustFindAux_none_iff text st.get_text 0).mp hf
      exact ⟨fun _ => hf', fun _ => trivial⟩
    · simp only []
      obtain ⟨j, l, _, hloop, _, _, _⟩ := loopSpec pos hf
      rw [hloop]
      constructor
      · intro hc
        exact absurd hc (by simp)
      · intro hall
        obtain ⟨pre, suf, hdec, _, _⟩ := rustFindAux_some text st.get_text 0 pos hf
        exact (hall pre suf hdec).elim
  · intro pos h
    obtain ⟨j, l, hget, hloop, hlo, hhi, hmin⟩ := loopSpec pos h
    refine ⟨j, l, hget, ?_, hlo, hhi, hmin⟩
    rw [TerminalState.find_text_def, h]
    exact hloop

/-- Witness for C3 (amended): `TerminalState.find_text_spec` applied to a
concrete 3×2 grid holding `hi` at row 1, with both hypotheses discharged;
the needle occurs, so `find_text` is not `None` there. -/
theorem find_text_spec_witness :
    (['h', 'i'] : List Char) ≠ [] ∧
      '\r' ∉ (((TerminalState.new ⟨3, 2⟩).set_char 0 1
        (TerminalChar.new 'h')).set_char 1 1 (TerminalChar.new 'i')).get_text ∧
      ¬ (((TerminalState.new ⟨3, 2⟩).set_char 0 1
        (TerminalChar.new 'h')).set_char 1 1 (TerminalChar.new 'i')).find_text
          ['h', 'i'] = none :=
  ⟨by decide, by decide,
    fun hnone =>
      ((((TerminalState.new ⟨3, 2⟩).set_char 0 1
            (TerminalChar.new 'h')).set_char 1 1 (TerminalChar.new 'i')).find_text_spec
          ['h', 'i'] (by decide) (by decide)).1.mp hnone ['\n'] [] (by decide)⟩

example : rustLines ['a', '\n', 'b'] = [['a'], ['b']] := by decide

example : rustLines ['a', '\r', '\n', 'b', '\n'] = [['a'], ['b']] := by decide

example : rustFind ['é', 'x'] ['x'] = some 2 := by decide

example : trimEnd ['a', ' ', ' '] = ['a'] := by decide

/-! ### Duration text (`parse_duration` in `src/script/mod.rs`)

Durations are modelled as `Nat` nanoseconds (Rust `std::time::Duration`
stores seconds and nanoseconds; every value is a whole number of
nanoseconds). -/

/-- ASCII decimal digit test. -/
def isAsciiDigit (c : Char) : Bool :=
  decide (48 ≤ c.toNat ∧ c.toNat ≤ 57)

/-- Value of a digit string (most significant first). -/
def digitsVal (ds : List Char) : Nat :=
  ds.foldl (fun acc c => acc * 10 + (c.toNat - 48)) 0

/-- Rust `u64::from_str`: an optional leading `+`, then one or more decimal
digits, value at most `2^64 - 1`. -/
def parseU64 (cs : List Char) : Option Nat :=
  let ds := if cs.head? = some '+' then cs.tail else cs
  if ds ≠ [] ∧ ds.all isAsciiDigit = true ∧ digitsVal ds < 2 ^ 64 then
    some (digitsVal ds)
  else none

/-- Whether `suffix` is a suffix of `cs` (Rust `str::ends_with`). -/
def endsWith (cs suffix : List Char) : Bool :=
  startsWith cs.reverse suffix.reverse

/-- Fuel-indexed loop of Rust `str::trim_end_matches`, operating on reversed
lists: repeatedly strip prefix `pat` while it matches. -/
def stripRepAux (pat : List Char) : Nat → List Char → List Char
  | 0, cs => cs
  | fuel + 1, cs =>
    if startsWith cs pat = true ∧ pat ≠ [] then
      stripRepAux pat fuel (cs.drop pat.length)
    else cs

/-- Rust `str::trim_end_matches(pat)`: remove every trailing repetition of
`pat`. -/
def trimEndMatches (cs pat : List Char) : List Char :=
  (stripRepAux pat.reverse (cs.length + 1) cs.reverse).reverse

/-- The `parse_duration` from `src/script/mod.rs`: `"<n>ms"` → milliseconds,
else `"<n>s"` → seconds, else an error (`none`). -/
def parse_duration (cs : List Char) : Option Nat :=
  if endsWith cs ['m', 's'] = true then
    (parseU64 (trimEndMatches cs ['m', 's'])).map (fun n => n * 1000000)
  else if endsWith cs ['s'] = true then
    (parseU64 (trimEndMatches cs ['s'])).map (fun n => n * 1000000000)
  else none

example : parse_duration ['5', '0', '0', 'm', 's'] = some 500000000 := by decide

example : parse_duration ['1', 's'] = some 1000000000 := by decide

example : parse_duration ['5', '0', '0'] = none := by decide

example : parse_duration ['5', 'm', 's', 'm', 's'] = some 5000000 := by decide

example : parse_duration ['+', '2', 's'] = some 2000000000 := by decide

example : parse_duration ['2', 'x'] = none := by decide

/-- Flattening one more replicated copy can be peeled from either end. -/
theorem flatten_replicate_comm (pat : List Char) (k : Nat) :
    (List.replicate k pat).flatten ++ pat = pat ++ (List.replicate k pat).flatten := by
  induction k with
  | zero => simp
  | succ k ih =>
    rw [List.replicate_succ, List.flatten_cons, List.append_assoc, ih,
      ← List.append_assoc]

/-- Reversal turns replicated copies of `pat` into replicated copies of
`pat.reverse`. -/
theorem reverse_flatten_replicate (pat : List Char) (k : Nat) :
    ((List.replicate k pat).flatten).reverse =
      (List.replicate k pat.reverse).flatten := by
  induction k with
  | zero => simp
  | succ k ih =>
    rw [List.replicate_succ, List.flatten_cons, List.reverse_append, ih,
      List.replicate_succ, List.flatten_cons]
    rw [← flatten_replicate_comm]

/-- The `startsWith` holds of any list extended from `pat` itself. -/
theorem startsWith_append (pat rest : List Char) :
    startsWith (pat ++ rest) pat = true :=
  (startsWith_iff _ pat).mpr ⟨rest, rfl⟩

/-- The strip loop removes some maximal run of leading `pat` copies. -/
theorem stripRepAux_spec (pat : List Char) (hp : pat ≠ []) :
    ∀ fuel cs, cs.length < fuel →
      ∃ k, cs = (List.replicate k pat).flatten ++ stripRepAux pat fuel cs ∧
        ¬ startsWith (stripRepAux pat fuel cs) pat = true := by
  intro fuel
  induction fuel with
  | zero => omega
  | succ fuel ih =>
    intro cs hlen
    by_cases hs : startsWith cs pat = true
    · obtain ⟨rest, hrest⟩ := (startsWith_iff cs pat).mp hs
      have hdrop : cs.drop pat.length = rest := by
        rw [hrest, List.drop_left]
      have hplen : 1 ≤ pat.length := by
        cases pat with
        | nil => exact absurd rfl hp
        | cons a b => simp
      have hrl : rest.length < fuel := by
        have := congrArg List.length hrest
        rw [List.length_append] at this
        omega
      have hunfold : stripRepAux pat (fuel + 1) cs =
          stripRepAux pat fuel rest := by
        rw [stripRepAux, if_pos ⟨hs, hp⟩, hdrop]
      obtain ⟨k, hk, hns⟩ := ih rest hrl
      refine ⟨k + 1, ?_, by rw [hunfold]; exact hns⟩
      rw [hunfold, hrest, List.replicate_succ, List.flatten_cons,
        List.append_assoc, ← hk]
    · have hunfold : stripRepAux pat (fuel + 1) cs = cs := by
        rw [stripRepAux, if_neg (fun hc => hs hc.1)]
      exact ⟨0, by rw [hunfold]; simp, by rw [hunfold]; exact hs⟩

/-- The strip loop removes exactly the replicated copies when the remainder
does not itself begin with `pat`. -/
theorem stripRepAux_of_rep (pat : List Char) (hp : pat ≠ []) :
    ∀ k fuel rcs, ¬ startsWith rcs pat = true →
      ((List.replicate k pat).flatten ++ rcs).length < fuel →
      stripRepAux pat fuel ((List.replicate k pat).flatten ++ rcs) = rcs := by
  intro k
  induction k with
  | zero =>
    intro fuel rcs hns hlen
    simp only [List.replicate, List.flatten_nil, List.nil_append] at hlen ⊢
    cases fuel with
    | zero => omega
    | succ fuel =>
      rw [stripRepAux, if_neg (fun hc => hns hc.1)]
  | succ k ih =>
    intro fuel rcs hns hlen
    rw [List.replicate_succ, List.flatten_cons, List.append_assoc] at hlen ⊢
    cases fuel with
    | zero => omega
    | succ fuel =>
      have hplen : 1 ≤ pat.length := by
        cases pat with
        | nil => exact absurd rfl hp
        | cons a b => simp
      rw [stripRepAux, if_pos ⟨startsWith_append pat _, hp⟩, List.drop_left]
      apply ih fuel rcs hns
      simp only [List.length_append] at hlen ⊢
      omega

/-- The `trimEndMatches` removes some maximal run of trailing `pat` copies. -/
theorem trimEndMatches_spec (cs pat : List Char) (hp : pat ≠ []) :
    ∃ k, cs = trimEndMatches cs pat ++ (List.replicate k pat).flatten ∧
      ¬ endsWith (trimEndMatches cs pat) pat = true := by
  have hp' : pat.reverse ≠ [] := by
    intro h
    exact hp (by simpa using congrArg List.reverse h)
  obtain ⟨k, hk, hns⟩ :=
    stripRepAux_spec pat.reverse hp' (cs.length + 1) cs.reverse (by simp)
  refine ⟨k, ?_, ?_⟩
  · have := congrArg List.reverse hk
    rw [List.reverse_reverse, List.reverse_append, reverse_flatten_replicate,
      List.reverse_reverse] at this
    exact this
  · intro hc
    apply hns
    unfold endsWith at hc
    rw [trimEndMatches, List.reverse_reverse] at hc
    exact hc

/-- The `trimEndMatches` applied to `r` plus `k` trailing copies of `pat` yields
`r`, when `r` does not itself end with `pat`. -/
theorem trimEndMatches_of_rep (r pat : List Char) (k : Nat) (hp : pat ≠ [])
    (hne : ¬ endsWith r pat = true) :
    trimEndMatches (r ++ (List.replicate k pat).flatten) pat = r := by
  have hp' : pat.reverse ≠ [] := by
    intro h
    exact hp (by simpa using congrArg List.reverse h)
  rw [trimEndMatches, List.reverse_append, reverse_flatten_replicate]
  rw [stripRepAux_of_rep pat.reverse hp' k _ r.reverse hne (by simp; omega)]
  exact List.reverse_reverse r

/-- A digit character is not `'+'`, `'s'` or `'m'` (and so `u64` numerals
never end in a duration suffix letter). -/
theorem digit_ne (c : Char) (h : isAsciiDigit c = true) :
    c ≠ '+' ∧ c ≠ 's' ∧ c ≠ 'm' := by
  refine ⟨?_, ?_, ?_⟩ <;> intro hc <;> subst hc <;> exact absurd h (by decide)

/-- The `parseU64` succeeds exactly on an optionally `+`-signed non-empty digit
string whose value fits in a `u64`. -/
theorem parseU64_eq_some_iff (cs : List Char) (n : Nat) :
    parseU64 cs = some n ↔
      ∃ sign ds, (sign = [] ∨ sign = ['+']) ∧ ds ≠ [] ∧
        ds.all isAsciiDigit = true ∧ digitsVal ds < 2 ^ 64 ∧
        cs = sign ++ ds ∧ n = digitsVal ds := by
  cases cs with
  | nil =>
    have hval : parseU64 [] = none := by decide
    rw [hval]
    constructor
    · intro h
      exact absurd h (by simp)
    · rintro ⟨sign, ds, hsign, hne, _, _, heq, _⟩
      rcases hsign with rfl | rfl
      · exact absurd heq.symm hne
      · exact absurd heq (by simp)
  | cons c rest =>
    by_cases hc : c = '+'
    · subst hc
      have hds : parseU64 ('+' :: rest) =
          if rest ≠ [] ∧ rest.all isAsciiDigit = true ∧ digitsVal rest < 2 ^ 64
          then some (digitsVal rest) else none := by
        unfold parseU64
        rfl
      rw [hds]
      constructor
      · intro h
        split_ifs at h with hcond
        injection h with h
        exact ⟨['+'], rest, Or.inr rfl, hcond.1, hcond.2.1, hcond.2.2, rfl,
          h.symm⟩
      · rintro ⟨sign, ds, hsign, hne, hall, hlt, heq, hn⟩
        rcases hsign with rfl | rfl
        · rw [List.nil_append] at heq
          have hd : isAsciiDigit '+' = true := by
            rw [← heq] at hall
            exact (List.all_eq_true.mp hall) '+' (by simp)
          exact absurd hd (by decide)
        · rw [List.cons_append, List.nil_append] at heq
          injection heq with _ h2
          subst h2
          rw [if_pos ⟨hne, hall, hlt⟩, hn]
    · have hds : parseU64 (c :: rest) =
          if (c :: rest) ≠ [] ∧ (c :: rest).all isAsciiDigit = true ∧
              digitsVal (c :: rest) < 2 ^ 64
          then some (digitsVal (c :: rest)) else none := by
        unfold parseU64
        simp only [List.head?_cons, Option.some.injEq]
        rw [if_neg hc]
      rw [hds]
      constructor
      · intro h
        split_ifs at h with hcond
        injection h with h
        exact ⟨[], c :: rest, Or.inl rfl, hcond.1, hcond.2.1, hcond.2.2, rfl,
          h.symm⟩
      · rintro ⟨sign, ds, hsign, hne, hall, hlt, heq, hn⟩
        rcases hsign with rfl | rfl
        · rw [List.nil_append] at heq
          subst heq
          rw [if_pos ⟨hne, hall, hlt⟩, hn]
        · rw [List.cons_append, List.nil_append] at heq
          injection heq with h1 _
          exact absurd h1 hc

/-- The last character of a signed digit string is a digit. -/
theorem reverse_head_digit (sign ds : List Char) (hne : ds ≠ [])
    (hall : ds.all isAsciiDigit = true) :
    ∃ d tl, (sign ++ ds).reverse = d :: tl ∧ isAsciiDigit d = true := by
  cases hrev : ds.reverse with
  | nil => exact absurd (by simpa using congrArg List.reverse hrev) hne
  | cons d tl =>
    have hmem : d ∈ ds := by
      rw [← List.mem_reverse, hrev]
      simp
    refine ⟨d, tl ++ sign.reverse, ?_, (List.all_eq_true.mp hall) d hmem⟩
    rw [List.reverse_append, hrev, List.cons_append]

/-- A signed digit string does not end with the `"ms"` suffix. -/
theorem not_endsWith_ms (sign ds : List Char) (hne : ds ≠ [])
    (hall : ds.all isAsciiDigit = true) :
    ¬ endsWith (sign ++ ds) ['m', 's'] = true := by
  obtain ⟨d, tl, hrev, hd⟩ := reverse_head_digit sign ds hne hall
  unfold endsWith
  rw [hrev]
  simp only [List.reverse_cons, List.reverse_nil, List.nil_append, startsWith,
    Bool.and_eq_true, decide_eq_true_eq]
  intro hcon
  exact (digit_ne d hd).2.1 hcon.1

/-- A signed digit string does not end with the `"s"` suffix. -/
theorem not_endsWith_s (sign ds : List Char) (hne : ds ≠ [])
    (hall : ds.all isAsciiDigit = true) :
    ¬ endsWith (sign ++ ds) ['s'] = true := by
  obtain ⟨d, tl, hrev, hd⟩ := reverse_head_digit sign ds hne hall
  unfold endsWith
  rw [hrev]
  simp only [List.reverse_cons, List.reverse_nil, List.nil_append, startsWith,
    Bool.and_eq_true, decide_eq_true_eq]
  intro hcon
  exact (digit_ne d hd).2.1 hcon.1

/-- Anything extended by `pat` ends with `pat`. -/
theorem endsWith_append (x pat : List Char) :
    endsWith (x ++ pat) pat = true := by
  unfold endsWith
  rw [List.reverse_append]
  exact startsWith_append pat.reverse x.reverse

/-- The `endsWith cs pat` holds exactly when `pat` is a suffix of `cs`. -/
theorem endsWith_iff (cs pat : List Char) :
    endsWith cs pat = true ↔ ∃ pre, cs = pre ++ pat := by
  unfold endsWith
  rw [startsWith_iff]
  constructor
  · rintro ⟨suf, h⟩
    refine ⟨suf.reverse, ?_⟩
    have := congrArg List.reverse h
    rw [List.reverse_reverse, List.reverse_append, List.reverse_reverse] at this
    exact this
  · rintro ⟨pre, rfl⟩
    exact ⟨pre.reverse, by rw [List.reverse_append]⟩

/-- Counterexample to C5 as stated: `"5msms"` is not a digit string followed
by a single `"ms"` or `"s"` suffix, yet `parse_duration` accepts it (as 5
milliseconds), because `trim_end_matches` strips the suffix repeatedly. -/
theorem parse_duration_counterexample :
    parse_duration ['5', 'm', 's', 'm', 's'] = some 5000000 ∧
    ¬ ∃ ds : List Char, ds ≠ [] ∧ ds.all isAsciiDigit = true ∧
      (['5', 'm', 's', 'm', 's'] = ds ++ ['m', 's'] ∨
       ['5', 'm', 's', 'm', 's'] = ds ++ ['s']) := by
  refine ⟨by decide, ?_⟩
  rintro ⟨ds, hne, hdig, h | h⟩
  · have h2 : (['5', 'm', 's'] : List Char) ++ ['m', 's'] = ds ++ ['m', 's'] := h
    obtain ⟨hds, _⟩ := List.append_inj' h2 rfl
    rw [← hds] at hdig
    exact absurd hdig (by decide)
  · have h2 : (['5', 'm', 's', 'm'] : List Char) ++ ['s'] = ds ++ ['s'] := h
    obtain ⟨hds, _⟩ := List.append_inj' h2 rfl
    rw [← hds] at hdig
    exact absurd hdig (by decide)

/-- A signed digit string followed by a run of `'s'` characters never carries
the `"ms"` suffix: the character before the final `'s'` is either another
`'s'` or the numeral's last digit, never `'m'`. -/
theorem sRun_not_endsWith_ms (sign ds : List Char) (hne : ds ≠ [])
    (hall : ds.all isAsciiDigit = true) (k : Nat) :
    ¬ endsWith (sign ++ ds ++ (List.replicate (k + 1) ['s']).flatten)
        ['m', 's'] = true := by
  intro hcon
  obtain ⟨pre, hpre⟩ := (endsWith_iff _ ['m', 's']).mp hcon
  obtain ⟨d, tl, hrev, hd⟩ := reverse_head_digit sign ds hne hall
  rw [List.reverse_append] at hrev
  have e3 : ∀ m : Nat, (List.replicate (m + 1) (['s'] : List Char)).flatten =
      's' :: (List.replicate m ['s']).flatten := by
    intro m
    rw [List.replicate_succ, List.flatten_cons]
    rfl
  have h1 := congrArg List.reverse hpre
  simp only [List.reverse_append] at h1
  rw [reverse_flatten_replicate] at h1
  have e1 : (['s'] : List Char).reverse = ['s'] := by decide
  have e2 : (['m', 's'] : List Char).reverse = ['s', 'm'] := by decide
  rw [e1, e2, e3 k] at h1
  simp only [List.cons_append, List.nil_append] at h1
  injection h1 with _ h2
  cases k with
  | zero =>
    simp only [List.replicate, List.flatten_nil, List.nil_append] at h2
    rw [hrev] at h2
    injection h2 with h3 _
    exact absurd h3 ((digit_ne d hd).2.2)
  | succ k2 =>
    rw [e3 k2] at h2
    simp only [List.cons_append] at h2
    injection h2 with h3 _
    exact absurd h3 (by decide)

/-- C5 (amended): `parse_duration` succeeds exactly on an optionally
`+`-signed decimal numeral fitting in a `u64`, followed by one or more
copies of `"ms"`, or by one or more `"s"` characters; in particular a bare
numeral such as `"500"` is a parse error (`none`), never a default value. -/
theorem parse_duration_iff (cs : List Char) :
    (∃ v, parse_duration cs = some v) ↔
      ∃ sign ds k, (sign = [] ∨ sign = ['+']) ∧ ds ≠ [] ∧
        ds.all isAsciiDigit = true ∧ digitsVal ds < 2 ^ 64 ∧ 1 ≤ k ∧
        (cs = sign ++ ds ++ (List.replicate k ['m', 's']).flatten ∨
         cs = sign ++ ds ++ (List.replicate k ['s']).flatten) := by
  have hsplit : ∀ (pat : List Char) (k : Nat),
      (List.replicate (k + 1) pat).flatten =
        (List.replicate k pat).flatten ++ pat := by
    intro pat k
    rw [List.replicate_succ, List.flatten_cons, ← flatten_replicate_comm]
  constructor
  · rintro ⟨v, hv⟩
    unfold parse_duration at hv
    by_cases hms : endsWith cs ['m', 's'] = true
    · rw [if_pos hms] at hv
      obtain ⟨n, hn⟩ : ∃ n, parseU64 (trimEndMatches cs ['m', 's']) = some n := by
        rcases hx : parseU64 (trimEndMatches cs ['m', 's']) with _ | n
        · rw [hx] at hv
          exact absurd hv (by simp)
        · exact ⟨n, rfl⟩
      obtain ⟨k, hdec, hnend⟩ := trimEndMatches_spec cs ['m', 's'] (by simp)
      obtain ⟨sign, ds, hsign, hne, hall, hlt, heq, _⟩ :=
        (parseU64_eq_some_iff _ n).mp hn
      have hk : 1 ≤ k := by
        rcases Nat.eq_zero_or_pos k with rfl | h
        · simp only [List.replicate, List.flatten_nil, List.append_nil] at hdec
          rw [hdec] at hms
          exact absurd hms hnend
        · exact h
      refine ⟨sign, ds, k, hsign, hne, hall, hlt, hk, Or.inl ?_⟩
      rw [hdec, heq, List.append_assoc]
    · rw [if_neg hms] at hv
      by_cases hs : endsWith cs ['s'] = true
      · rw [if_pos hs] at hv
        obtain ⟨n, hn⟩ : ∃ n, parseU64 (trimEndMatches cs ['s']) = some n := by
          rcases hx : parseU64 (trimEndMatches cs ['s']) with _ | n
          · rw [hx] at hv
            exact absurd hv (by simp)
          · exact ⟨n, rfl⟩
        obtain ⟨k, hdec, hnend⟩ := trimEndMatches_spec cs ['s'] (by simp)
        obtain ⟨sign, ds, hsign, hne, hall, hlt, heq, _⟩ :=
          (parseU64_eq_some_iff _ n).mp hn
        have hk : 1 ≤ k := by
          rcases Nat.eq_zero_or_pos k with rfl | h
          · simp only [List.replicate, List.flatten_nil, List.append_nil] at hdec
            rw [hdec] at hs
            exact absurd hs hnend
          · exact h
        refine ⟨sign, ds, k, hsign, hne, hall, hlt, hk, Or.inr ?_⟩
        rw [hdec, heq, List.append_assoc]
      · rw [if_neg hs] at hv
        exact absurd hv (by simp)
  · rintro ⟨sign, ds, k, hsign, hne, hall, hlt, hk, hcase | hcase⟩
    · obtain ⟨k', rfl⟩ : ∃ k', k = k' + 1 := ⟨k - 1, by omega⟩
      have hms : endsWith cs ['m', 's'] = true := by
        rw [hcase, hsplit, ← List.append_assoc]
        exact endsWith_append _ _
      have htrim : trimEndMatches cs ['m', 's'] = sign ++ ds := by
        rw [hcase]
        exact trimEndMatches_of_rep (sign ++ ds) ['m', 's'] (k' + 1) (by simp)
          (not_endsWith_ms sign ds hne hall)
      refine ⟨digitsVal ds * 1000000, ?_⟩
      unfold parse_duration
      rw [if_pos hms, htrim,
        (parseU64_eq_some_iff _ (digitsVal ds)).mpr
          ⟨sign, ds, hsign, hne, hall, hlt, rfl, rfl⟩]
      rfl
    · obtain ⟨k', rfl⟩ : ∃ k', k = k' + 1 := ⟨k - 1, by omega⟩
      have hs : endsWith cs ['s'] = true := by
        rw [hcase, hsplit, ← List.append_assoc]
        exact endsWith_append _ _
      have hnotms : ¬ endsWith cs ['m', 's'] = true := by
        rw [hcase]
        exact sRun_not_endsWith_ms sign ds hne hall k'
      have htrim : trimEndMatches cs ['s'] = sign ++ ds := by
        rw [hcase]
        exact trimEndMatches_of_rep (sign ++ ds) ['s'] (k' + 1) (by simp)
          (not_endsWith_s sign ds hne hall)
      refine ⟨digitsVal ds * 1000000000, ?_⟩
      unfold parse_duration
      rw [if_neg hnotms, if_pos hs, htrim,
        (parseU64_eq_some_iff _ (digitsVal ds)).mpr
          ⟨sign, ds, hsign, hne, hall, hlt, rfl, rfl⟩]
      rfl

/-! ### Script model and serde round-trip (`src/script/mod.rs`,
`src/script/loader.rs`)

The YAML transport of strings and numbers is the out-of-scope external
loader and is modelled as the identity; the duration fields pass through the
`duration_option` / `duration_ms` / `duration_secs` serde helpers, which
serialize with `format!("{}ms", d.as_millis())` / `format!("{}s",
d.as_secs())` and deserialize with `parse_duration`. -/

/-- The decimal digit character for `d < 10`. -/
def digitChar (d : Nat) : Char :=
  Char.ofNat (48 + d)

/-- Fuel-indexed decimal rendering of a natural number (Rust `format!("{}",
n)` for unsigned integers). -/
def natToCharsAux : Nat → Nat → List Char
  | 0, _ => []
  | fuel + 1, n =>
    if n < 10 then [digitChar n]
    else natToCharsAux fuel (n / 10) ++ [digitChar (n % 10)]

/-- Decimal rendering of a natural number. -/
def natToChars (n : Nat) : List Char :=
  natToCharsAux (n + 1) n

example : natToChars 500 = ['5', '0', '0'] := by decide

/-- A digit value below ten renders to a digit character with the expected
code point. -/
theorem digitChar_spec (d : Nat) (hd : d < 10) :
    isAsciiDigit (digitChar d) = true ∧ (digitChar d).toNat = 48 + d := by
  interval_cases d <;> exact ⟨by decide, by decide⟩

/-- Appending one digit multiplies the accumulated value by ten. -/
theorem digitsVal_append_digit (ds : List Char) (c : Char) :
    digitsVal (ds ++ [c]) = digitsVal ds * 10 + (c.toNat - 48) := by
  simp [digitsVal, List.foldl_append]

/-- With enough fuel, the decimal rendering is a non-empty digit string that
evaluates back to the rendered number. -/
theorem natToCharsAux_spec : ∀ fuel n, n < fuel →
    natToCharsAux fuel n ≠ [] ∧
    (natToCharsAux fuel n).all isAsciiDigit = true ∧
    digitsVal (natToCharsAux fuel n) = n := by
  intro fuel
  induction fuel with
  | zero => omega
  | succ fuel ih =>
    intro n hn
    by_cases h10 : n < 10
    · rw [natToCharsAux, if_pos h10]
      obtain ⟨hd, hv⟩ := digitChar_spec n h10
      refine ⟨by simp, by simp [hd], ?_⟩
      simp [digitsVal]
      omega
    · rw [natToCharsAux, if_neg h10]
      have hdiv : n / 10 < fuel := by omega
      obtain ⟨hne, hall, hval⟩ := ih (n / 10) hdiv
      obtain ⟨hd, hv⟩ := digitChar_spec (n % 10) (by omega)
      refine ⟨by simp, ?_, ?_⟩
      · rw [List.all_append]
        simp [hall, hd]
      · rw [digitsVal_append_digit, hval, hv]
        omega

/-- The `natToChars` is a non-empty digit string evaluating to its argument. -/
theorem natToChars_spec (n : Nat) :
    natToChars n ≠ [] ∧ (natToChars n).all isAsciiDigit = true ∧
    digitsVal (natToChars n) = n :=
  natToCharsAux_spec (n + 1) n (by omega)

/-- The `parse_duration` applied to a rendered numeral with a single `"ms"`
suffix recovers the numeral as milliseconds. -/
theorem parse_duration_digits_ms (ds : List Char) (hne : ds ≠ [])
    (hall : ds.all isAsciiDigit = true) (hlt : digitsVal ds < 2 ^ 64) :
    parse_duration (ds ++ ['m', 's']) = some (digitsVal ds * 1000000) := by
  have hms : endsWith (ds ++ ['m', 's']) ['m', 's'] = true := endsWith_append _ _
  have h1 : (List.replicate 1 (['m', 's'] : List Char)).flatten = ['m', 's'] := by
    decide
  have htrim : trimEndMatches (ds ++ ['m', 's']) ['m', 's'] = ds := by
    rw [← h1]
    exact trimEndMatches_of_rep ds ['m', 's'] 1 (by simp)
      (by simpa using not_endsWith_ms [] ds hne hall)
  unfold parse_duration
  rw [if_pos hms, htrim,
    (parseU64_eq_some_iff ds (digitsVal ds)).mpr
      ⟨[], ds, Or.inl rfl, hne, hall, hlt, by simp, rfl⟩]
  rfl

/-- The `parse_duration` applied to a rendered numeral with a single `"s"`
suffix recovers the numeral as seconds. -/
theorem parse_duration_digits_s (ds : List Char) (hne : ds ≠ [])
    (hall : ds.all isAsciiDigit = true) (hlt : digitsVal ds < 2 ^ 64) :
    parse_duration (ds ++ ['s']) = some (digitsVal ds * 1000000000) := by
  have hs : endsWith (ds ++ ['s']) ['s'] = true := endsWith_append _ _
  have hnotms : ¬ endsWith (ds ++ ['s']) ['m', 's'] = true := by
    have h0 : (List.replicate 1 (['s'] : List Char)).flatten = ['s'] := by decide
    have := sRun_not_endsWith_ms [] ds hne hall 0
    rw [h0] at this
    simpa using this
  have h1 : (List.replicate 1 (['s'] : List Char)).flatten = ['s'] := by decide
  have htrim : trimEndMatches (ds ++ ['s']) ['s'] = ds := by
    rw [← h1]
    exact trimEndMatches_of_rep ds ['s'] 1 (by simp)
      (by simpa using not_endsWith_s [] ds hne hall)
  unfold parse_duration
  rw [if_neg hnotms, if_pos hs, htrim,
    (parseU64_eq_some_iff ds (digitsVal ds)).mpr
      ⟨[], ds, Or.inl rfl, hne, hall, hlt, by simp, rfl⟩]
  rfl

/-- The `TerminalSettings` from `src/script/mod.rs`. -/
structure TerminalSettings where
  width : Nat
  height : Nat
  shell : List Char
  theme : List Char
  working_dir : Option (List Char)
deriving DecidableEq, Repr

/-- The `StepType` from `src/script/mod.rs`; durations in nanoseconds. -/
inductive StepType where
  | command (text : List Char) (wait : Option Nat)
  | type_ (text : List Char) (speed : Nat)
  | screenshot (name : List Char)
  | record_gif (duration : Nat) (name : List Char)
deriving DecidableEq, Repr

/-- The `ScriptStep` from `src/script/mod.rs`. -/
structure ScriptStep where
  step_type : StepType
deriving DecidableEq, Repr

/-- The `Script` from `src/script/mod.rs`. -/
structure Script where
  name : List Char
  settings : TerminalSettings
  steps : List ScriptStep
deriving DecidableEq, Repr

/-- The `duration_ms::serialize` / `duration_option::serialize`:
`format!("{}ms", d.as_millis())`. -/
def serMs (d : Nat) : List Char :=
  natToChars (d / 1000000) ++ ['m', 's']

/-- The `duration_secs::serialize`: `format!("{}s", d.as_secs())`. -/
def serSecs (d : Nat) : List Char :=
  natToChars (d / 1000000000) ++ ['s']

/-- One step's serialize-then-deserialize round trip: text fields ride the
external YAML transport unchanged, duration fields go through the serde
helpers (`serMs`/`serSecs` on the way out, `parse_duration` on the way
back). -/
def roundtripStep : StepType → Option StepType
  | .command text wait =>
    match wait with
    | none => some (.command text none)
    | some d => (parse_duration (serMs d)).map fun d' => .command text (some d')
  | .type_ text speed =>
    (parse_duration (serMs speed)).map fun d' => .type_ text d'
  | .screenshot name => some (.screenshot name)
  | .record_gif d name =>
    (parse_duration (serSecs d)).map fun d' => .record_gif d' name

/-- A whole script's serialize-then-deserialize round trip. -/
def roundtripScript (s : Script) : Option Script :=
  (s.steps.mapM fun st => (roundtripStep st.step_type).map ScriptStep.mk).map
    fun steps => { s with steps := steps }

/-- A step's duration fields are whole numbers of the unit they serialize
with, and fit in a `u64` in that unit. -/
def stepDurationsAligned : StepType → Bool
  | .command _ none => true
  | .command _ (some d) => decide (d % 1000000 = 0 ∧ d / 1000000 < 2 ^ 64)
  | .type_ _ speed => decide (speed % 1000000 = 0 ∧ speed / 1000000 < 2 ^ 64)
  | .screenshot _ => true
  | .record_gif d _ => decide (d % 1000000000 = 0 ∧ d / 1000000000 < 2 ^ 64)

/-- A step with unit-aligned durations survives the round trip unchanged. -/
theorem roundtripStep_aligned (st : StepType)
    (h : stepDurationsAligned st = true) : roundtripStep st = some st := by
  cases st with
  | command text wait =>
    cases wait with
    | none => rfl
    | some d =>
      simp only [stepDurationsAligned, decide_eq_true_eq] at h
      obtain ⟨hne, hall, hval⟩ := natToChars_spec (d / 1000000)
      rw [roundtripStep]
      rw [serMs, parse_duration_digits_ms _ hne hall (by rw [hval]; exact h.2)]
      rw [hval, Nat.div_mul_cancel (Nat.dvd_of_mod_eq_zero h.1)]
      rfl
  | type_ text speed =>
    simp only [stepDurationsAligned, decide_eq_true_eq] at h
    obtain ⟨hne, hall, hval⟩ := natToChars_spec (speed / 1000000)
    rw [roundtripStep]
    rw [serMs, parse_duration_digits_ms _ hne hall (by rw [hval]; exact h.2)]
    rw [hval, Nat.div_mul_cancel (Nat.dvd_of_mod_eq_zero h.1)]
    rfl
  | screenshot name => rfl
  | record_gif d name =>
    simp only [stepDurationsAligned, decide_eq_true_eq] at h
    obtain ⟨hne, hall, hval⟩ := natToChars_spec (d / 1000000000)
    rw [roundtripStep]
    rw [serSecs, parse_duration_digits_s _ hne hall (by rw [hval]; exact h.2)]
    rw [hval, Nat.div_mul_cancel (Nat.dvd_of_mod_eq_zero h.1)]
    rfl

/-- The `mapM` over `Option` of a function behaving as the identity. -/
theorem mapM_option_id {α : Type} (f : α → Option α) (l : List α)
    (h : ∀ x ∈ l, f x = some x) : l.mapM f = some l := by
  induction l with
  | nil => rfl
  | cons x xs ih =>
    rw [List.mapM_cons, h x (by simp), ih (fun y hy => h y (by simp [hy]))]
    rfl

/-- Counterexample to C4 as stated: a `RecordGif` duration of 500 ms
serializes through `format!("{}s", d.as_secs())` as `"0s"`, so the reloaded
script carries duration 0, not the original 0.5 s. -/
theorem script_roundtrip_counterexample :
    roundtripScript
      ⟨['d'], ⟨120, 30, ['b'], ['t'], none⟩,
        [⟨.record_gif 500000000 ['g']⟩]⟩ =
      some ⟨['d'], ⟨120, 30, ['b'], ['t'], none⟩, [⟨.record_gif 0 ['g']⟩]⟩ ∧
    ((⟨['d'], ⟨120, 30, ['b'], ['t'], none⟩, [⟨.record_gif 0 ['g']⟩]⟩ : Script) ≠
      ⟨['d'], ⟨120, 30, ['b'], ['t'], none⟩, [⟨.record_gif 500000000 ['g']⟩]⟩) := by
  exact ⟨by decide, by decide⟩

/-- C4 (amended): serializing and reloading preserves a `Script` exactly —
same name, settings, step count and step fields — provided every duration
field is a whole number of its serialization unit (milliseconds for
`Command.wait` and `Type.speed`, seconds for `RecordGif.duration`) and fits
in a `u64` in that unit; sub-unit parts are truncated by `as_millis` /
`as_secs` otherwise. -/
theorem script_roundtrip (s : Script)
    (h : ∀ st ∈ s.steps, stepDurationsAligned st.step_type = true) :
    roundtripScript s = some s := by
  unfold roundtripScript
  rw [mapM_option_id _ s.steps]
  · rfl
  · intro st hst
    rw [roundtripStep_aligned st.step_type (h st hst)]
    rfl

/-- Witness for C4: `script_roundtrip` applied to a concrete script whose
durations are unit-aligned (a 500 ms wait, a 50 ms typing speed and a 2 s
recording), with the alignment hypothesis discharged by evaluation. -/
theorem script_roundtrip_witness :
    (∀ st ∈ ([⟨.command ['p'] (some 500000000)⟩, ⟨.type_ ['l'] 50000000⟩,
        ⟨.record_gif 2000000000 ['g']⟩] : List ScriptStep),
      stepDurationsAligned st.step_type = true) ∧
    roundtripScript
      ⟨['d'], ⟨120, 30, ['b'], ['t'], none⟩,
        [⟨.command ['p'] (some 500000000)⟩, ⟨.type_ ['l'] 50000000⟩,
         ⟨.record_gif 2000000000 ['g']⟩]⟩ =
      some ⟨['d'], ⟨120, 30, ['b'], ['t'], none⟩,
        [⟨.command ['p'] (some 500000000)⟩, ⟨.type_ ['l'] 50000000⟩,
         ⟨.record_gif 2000000000 ['g']⟩]⟩ :=
  ⟨by decide,
    script_roundtrip
      ⟨['d'], ⟨120, 30, ['b'], ['t'], none⟩,
        [⟨.command ['p'] (some 500000000)⟩, ⟨.type_ ['l'] 50000000⟩,
         ⟨.record_gif 2000000000 ['g']⟩]⟩ (by decide)⟩

/-! ### PTY typing cadence (`Terminal::type_text` in `src/pty/mod.rs`) -/

/-- Observable events of the typing loop: a one-character write to the PTY
or a suspension for a duration (nanoseconds). -/
inductive PtyEvent where
  | write (c : Char)
  | sleep (d : Nat)
deriving DecidableEq, Repr

/-- The event trace of `Terminal::type_text(text, delay_per_char)`: for each
character, `send_input` of that single character followed by
`tokio::time::sleep(delay_per_char)`. -/
def typeTextTrace (text : List Char) (delay : Nat) : List PtyEvent :=
  (text.map fun c => [PtyEvent.write c, PtyEvent.sleep delay]).flatten

/-- Modelled from the claim's words: writes with the delay only between
consecutive characters and no suspension after the final character. -/
def specTypingTrace (text : List Char) (delay : Nat) : List PtyEvent :=
  match text with
  | [] => []
  | c :: rest =>
    PtyEvent.write c ::
      (rest.map fun c' => [PtyEvent.sleep delay, PtyEvent.write c']).flatten

/-- Counterexample to C8 as stated: typing `"a"` produces a trailing sleep
after the final (only) character, so the trace differs from the
between-characters-only trace. -/
theorem type_text_trailing_sleep_counterexample :
    typeTextTrace ['a'] 7 = [PtyEvent.write 'a', PtyEvent.sleep 7] ∧
    specTypingTrace ['a'] 7 = [PtyEvent.write 'a'] ∧
    typeTextTrace ['a'] 7 ≠ specTypingTrace ['a'] 7 := by
  exact ⟨by decide, by decide, by decide⟩

/-- C8 (amended): `type_text` writes each character of the text
individually, in order (the written characters spell exactly the text),
suspending for the given delay after every character — including one extra
suspension after the final character, beyond the between-characters delays
the claim describes. -/
theorem type_text_trace_correct (text : List Char) (delay : Nat) :
    (typeTextTrace text delay).filterMap
        (fun e => match e with
          | PtyEvent.write c => some c
          | PtyEvent.sleep _ => none) = text ∧
    (text ≠ [] →
      typeTextTrace text delay =
        specTypingTrace text delay ++ [PtyEvent.sleep delay]) := by
  constructor
  · induction text with
    | nil => rfl
    | cons c rest ih =>
      have : typeTextTrace (c :: rest) delay =
          PtyEvent.write c :: PtyEvent.sleep delay :: typeTextTrace rest delay := by
        simp [typeTextTrace]
      rw [this]
      simp only [List.filterMap_cons]
      rw [ih]
  · intro hne
    induction text with
    | nil => exact absurd rfl hne
    | cons c rest ih =>
      have h1 : typeTextTrace (c :: rest) delay =
          PtyEvent.write c :: PtyEvent.sleep delay :: typeTextTrace rest delay := by
        simp [typeTextTrace]
      cases rest with
      | nil => simp [typeTextTrace, specTypingTrace]
      | cons c2 rest2 =>
        have h2 := ih (by simp)
        have h3 : specTypingTrace (c :: c2 :: rest2) delay =
            PtyEvent.write c :: PtyEvent.sleep delay ::
              specTypingTrace (c2 :: rest2) delay := by
          simp [specTypingTrace]
        rw [h1, h3, List.cons_append, List.cons_append, ← h2]

/-- Witness for C8 (amended): `type_text_trace_correct` applied to the
concrete text `"ab"` with a 7 ns delay, the non-emptiness hypothesis
discharged. -/
theorem type_text_trace_correct_witness :
    (['a', 'b'] : List Char) ≠ [] ∧
      typeTextTrace ['a', 'b'] 7 =
        specTypingTrace ['a', 'b'] 7 ++ [PtyEvent.sleep 7] :=
  ⟨by decide, (type_text_trace_correct ['a', 'b'] 7).2 (by decide)⟩

/-! ### GIF recording lifecycle (`MediaRecorder` in `src/media/recorder.rs`)

Rendering and encoding are the out-of-scope external collaborators; a frame
is modelled as the captured content string, and the artifact produced by
`stop_gif_recording` as the list of frames handed to the encoder. -/

/-- The `GifGenerator` reduced to its accumulated frames. -/
structure GifGeneratorM where
  frames : List (List Char)
deriving DecidableEq, Repr

/-- The `MediaRecorder` reduced to its recording state. -/
structure MediaRecorder where
  gif_generator : Option GifGeneratorM
deriving DecidableEq, Repr

/-- The `MediaRecorder::start_gif_recording`: unconditionally installs a fresh
generator and returns `Ok(())`. -/
def MediaRecorder.start_gif_recording (r : MediaRecorder) :
    Except (List Char) MediaRecorder :=
  Except.ok { r with gif_generator := some ⟨[]⟩ }

/-- The `MediaRecorder::capture_gif_frame`: appends a frame when a recording is
active, otherwise does nothing; returns `Ok(())`. -/
def MediaRecorder.capture_gif_frame (r : MediaRecorder) (content : List Char) :
    Except (List Char) MediaRecorder :=
  Except.ok (match r.gif_generator with
    | some g => { r with gif_generator := some ⟨g.frames ++ [content]⟩ }
    | none => r)

/-- The `MediaRecorder::stop_gif_recording`: `take()`s the generator; when one
was active its frames are saved (the artifact), otherwise nothing is
produced; returns `Ok` either way. -/
def MediaRecorder.stop_gif_recording (r : MediaRecorder) :
    Except (List Char) (MediaRecorder × Option (List (List Char))) :=
  Except.ok (match r.gif_generator with
    | some g => ({ r with gif_generator := none }, some g.frames)
    | none => ({ r with gif_generator := none }, none))

/-- Counterexample to C7 as stated: starting a recording while one is active
(holding one frame) is not an error — it succeeds and discards the
accumulated frame. -/
theorem start_recording_counterexample :
    (MediaRecorder.mk (some ⟨[['f']]⟩)).start_gif_recording =
      Except.ok (MediaRecorder.mk (some ⟨[]⟩)) ∧
    (⟨[]⟩ : GifGeneratorM) ≠ ⟨[['f']]⟩ := by
  exact ⟨rfl, by decide⟩

/-- C7 (amended): `start_gif_recording` always succeeds, replacing any
active recording with a fresh empty one (discarding its accumulated
frames); `stop_gif_recording` with no active recording is a no-op that
succeeds and produces no artifact, while with an active recording it
succeeds and hands exactly the accumulated frames to the encoder. -/
theorem recorder_start_stop_spec (r : MediaRecorder) :
    (r.start_gif_recording =
      Except.ok { r with gif_generator := some ⟨[]⟩ }) ∧
    (r.gif_generator = none →
      r.stop_gif_recording = Except.ok (r, none)) ∧
    (∀ g, r.gif_generator = some g →
      r.stop_gif_recording =
        Except.ok ({ r with gif_generator := none }, some g.frames)) := by
  refine ⟨rfl, ?_, ?_⟩
  · intro hnone
    unfold MediaRecorder.stop_gif_recording
    rw [hnone]
    cases r with
    | mk gg =>
      simp only [] at hnone
      subst hnone
      rfl
  · intro g hg
    unfold MediaRecorder.stop_gif_recording
    rw [hg]

/-- Witness for C7 (amended): `recorder_start_stop_spec` applied to the
concrete idle recorder, its hypothesis discharged — stopping with no active
recording succeeds and produces no artifact. -/
theorem recorder_start_stop_spec_witness :
    (MediaRecorder.mk none).gif_generator = none ∧
      (MediaRecorder.mk none).stop_gif_recording =
        Except.ok (MediaRecorder.mk none, none) :=
  ⟨rfl, (recorder_start_stop_spec (MediaRecorder.mk none)).2.1 rfl⟩

/-! ### Output polling (`Terminal::wait_for_output` in `src/pty/mod.rs`)

Real time is idealized: the buffer is a function from poll index to its
contents at that poll, the `k`-th poll happens at elapsed time `100·k` ms
(the loop's fixed `sleep(100ms)` cadence with instantaneous checks), and
the loop continues while the elapsed time is strictly below the timeout.
The fuel argument merely bounds the recursion and `timeoutMs + 1` polls
always suffice. -/

/-- Fuel-indexed poll loop of `wait_for_output`. -/
def waitLoopAux (snap : Nat → List Char) (pat : List Char) (timeoutMs : Nat) :
    Nat → Nat → Bool
  | 0, _ => false
  | fuel + 1, k =>
    if 100 * k < timeoutMs then
      if rustContains (snap k) pat then true
      else waitLoopAux snap pat timeoutMs fuel (k + 1)
    else false

/-- The `Terminal::wait_for_output(pattern, timeout)`: poll the captured buffer
every 100 ms until the pattern occurs or the timeout elapses; the body has
no error path, so the `Result` is always `Ok`. -/
def wait_for_output (snap : Nat → List Char) (pat : List Char)
    (timeoutMs : Nat) : Except (List Char) Bool :=
  Except.ok (waitLoopAux snap pat timeoutMs (timeoutMs + 1) 0)

/-- Counterexample to C6 as stated: with a zero timeout the loop body never
runs, so `wait_for_output` returns `Ok(false)` even though the pattern is
already present in the buffer at the time of the call. -/
theorem wait_for_output_zero_timeout_counterexample :
    wait_for_output (fun _ => ['h', 'i']) ['h', 'i'] 0 = Except.ok false ∧
    rustContains ['h', 'i'] ['h', 'i'] = true := by
  exact ⟨rfl, by decide⟩

/-- Specification of the poll loop: with fuel covering every in-timeout poll
index, the loop returns `true` exactly when some poll at or after `k` that
happens strictly before the timeout sees the pattern. -/
theorem waitLoopAux_spec (snap : Nat → List Char) (pat : List Char)
    (timeoutMs : Nat) :
    ∀ fuel k, (∀ j, k ≤ j → 100 * j < timeoutMs → j < k + fuel) →
      (waitLoopAux snap pat timeoutMs fuel k = true ↔
        ∃ j, k ≤ j ∧ 100 * j < timeoutMs ∧
          rustContains (snap j) pat = true) := by
  intro fuel
  induction fuel with
  | zero =>
    intro k hbound
    simp only [waitLoopAux]
    constructor
    · intro h
      exact absurd h (by simp)
    · rintro ⟨j, hkj, hjt, _⟩
      have := hbound j hkj hjt
      omega
  | succ fuel ih =>
    intro k hbound
    by_cases hk : 100 * k < timeoutMs
    · by_cases hc : rustContains (snap k) pat = true
      · have hval : waitLoopAux snap pat timeoutMs (fuel + 1) k = true := by
          rw [waitLoopAux, if_pos hk, if_pos hc]
        rw [hval]
        exact ⟨fun _ => ⟨k, Nat.le_refl k, hk, hc⟩, fun _ => rfl⟩
      · have hstep : waitLoopAux snap pat timeoutMs (fuel + 1) k =
            waitLoopAux snap pat timeoutMs fuel (k + 1) := by
          rw [waitLoopAux, if_pos hk, if_neg hc]
        rw [hstep, ih (k + 1) (fun j hj hjt => by
          have := hbound j (by omega) hjt
          omega)]
        constructor
        · rintro ⟨j, hkj, hjt, hcj⟩
          exact ⟨j, by omega, hjt, hcj⟩
        · rintro ⟨j, hkj, hjt, hcj⟩
          refine ⟨j, ?_, hjt, hcj⟩
          rcases Nat.eq_or_lt_of_le hkj with rfl | h
          · exact absurd hcj hc
          · omega
    · have hval : waitLoopAux snap pat timeoutMs (fuel + 1) k = false := by
        rw [waitLoopAux, if_neg hk]
      rw [hval]
      constructor
      · intro h
        exact absurd h (by simp)
      · rintro ⟨j, hkj, hjt, _⟩
        omega

/-- C6 (amended): under the idealized 100 ms poll timing, `wait_for_output`
never returns an error and terminates; it returns `Ok(true)` exactly when
the pattern occurs in the buffer at some poll strictly before the timeout
elapses (and `Ok(false)` otherwise); in particular a pattern already present
at the first poll yields `Ok(true)` whenever the timeout is positive — a
zero timeout skips the loop entirely and yields `Ok(false)`. -/
theorem wait_for_output_spec (snap : Nat → List Char) (pat : List Char)
    (timeoutMs : Nat) :
    (∃ b, wait_for_output snap pat timeoutMs = Except.ok b) ∧
    (wait_for_output snap pat timeoutMs = Except.ok true ↔
      ∃ k, 100 * k < timeoutMs ∧ rustContains (snap k) pat = true) ∧
    (1 ≤ timeoutMs → rustContains (snap 0) pat = true →
      wait_for_output snap pat timeoutMs = Except.ok true) := by
  have hspec := waitLoopAux_spec snap pat timeoutMs (timeoutMs + 1) 0
    (fun j _ hjt => by omega)
  refine ⟨⟨_, rfl⟩, ?_, ?_⟩
  · unfold wait_for_output
    constructor
    · intro h
      have hb : waitLoopAux snap pat timeoutMs (timeoutMs + 1) 0 = true := by
        injection h
      obtain ⟨j, _, hjt, hcj⟩ := hspec.mp hb
      exact ⟨j, hjt, hcj⟩
    · rintro ⟨k, hk, hc⟩
      rw [hspec.mpr ⟨k, Nat.zero_le k, hk, hc⟩]
  · intro ht hc
    unfold wait_for_output
    rw [hspec.mpr ⟨0, Nat.le_refl 0, by omega, hc⟩]

/-- Witness for C6 (amended): `wait_for_output_spec` applied to a constant
buffer already holding the pattern and a 250 ms timeout; the discharged
hypotheses give `Ok(true)`. -/
theorem wait_for_output_spec_witness :
    1 ≤ 250 ∧ rustContains ['h', 'i'] ['h', 'i'] = true ∧
      wait_for_output (fun _ => ['h', 'i']) ['h', 'i'] 250 = Except.ok true :=
  ⟨by decide, by decide,
    (wait_for_output_spec (fun _ => ['h', 'i']) ['h', 'i'] 250).2.2 (by decide)
      (by decide)⟩

/-- Witness for C10: the hypotheses of `TerminalState.get_set_char_correct`
hold at the concrete state `TerminalState.new ⟨2, 2⟩`, and the theorem
applied there yields that reading at the out-of-bounds column 2 gives
`None`. -/
theorem TerminalState.get_set_char_correct_witness :
    (TerminalState.new ⟨2, 2⟩).wf ∧
      (TerminalState.new ⟨2, 2⟩).get_char 2 0 = none :=
  ⟨TerminalState.new_wf ⟨2, 2⟩,
    ((TerminalState.get_set_char_correct (TerminalState.new ⟨2, 2⟩)
        (TerminalState.new_wf ⟨2, 2⟩)).1 2 0).mpr (by decide)⟩
